import Mathlib

/-!
A shallow embedding of the e-graph core in `src/src/ast/euf/euf_egraph.cpp`
(the congruence-closure layer: union-find over e-nodes, congruence table,
trail-based undo, proof forest), together with theorems settling the
specification claims about it.

Node identifiers coincide with expression identifiers (`mk` requires a fresh
expression per node, and `m_expr2enode` is a bijection between live nodes and
their expressions), so a node is a `Nat`.  The term universe (`ast_manager`)
is a read-only environment.  Loops that walk pointer structures (class rings,
proof-forest paths, the propagation worklist) take explicit fuel; the fuel is
always large enough on the concrete runs evaluated below, and the propagate
fuel faithfully models the manager's cancellation limit.
-/

namespace Euf

/-- Three-valued assignment, mirroring `lbool`. -/
inductive LBool where
  | undef
  | tt
  | ff
deriving DecidableEq, Repr

/-- Justification attached to a proof-forest edge, mirroring `euf::justification`:
an axiom (self-justified), a congruence (with commutativity flag), or an
external theory-supplied token. -/
inductive Justification where
  | ax : Justification
  | congr (comm : Bool) : Justification
  | ext (tok : Nat) : Justification
deriving DecidableEq, Repr

/-- Mirrors `justification::is_congruence`. -/
def Justification.isCongruence : Justification → Bool
  | .congr _ => true
  | _ => false

/-- Entry of the `m_new_th_eqs` queue, mirroring `euf::th_eq`: either a theory
equality `(id, v1, v2, child, root)` or a theory disequality
`(id, v1, v2, eq_expr)`. -/
inductive ThEq where
  | eq (id : Nat) (v1 v2 : Int) (c r : Nat)
  | diseq (id : Nat) (v1 v2 : Int) (e : Nat)
deriving DecidableEq, Repr

/-- Trail record, mirroring `egraph::update_record` and its tags. -/
inductive URec where
  | addNode
  | toggleMerge (n : Nat)
  | setParent (r1 n1 r2NumParents : Nat)
  | addThVar (n tid : Nat)
  | replaceThVar (n tid : Nat) (oldVar : Int)
  | newLit
  | newThEq
  | newThEqQhead (q : Nat)
  | newLitsQhead (q : Nat)
  | incFlag (old : Bool)
deriving DecidableEq, Repr

/-- An e-node's fields, mirroring `euf::enode` (identity, children, union-find
root, circular class ring, class size, parent occurrences, proof-forest edge,
theory-variable attachments, flags). -/
structure ENode where
  expr : Nat
  args : List Nat
  root : Nat
  next : Nat
  classSize : Nat
  parents : List Nat
  target : Option Nat
  just : Justification
  thVars : List (Nat × Int)
  mergeEnabled : Bool
  interpreted : Bool
  mark1 : Bool
deriving Repr

/-- The default (not-yet-created) node for identifier `i`: a singleton class. -/
def defNode (i : Nat) : ENode :=
  { expr := i, args := [], root := i, next := i, classSize := 1, parents := []
    target := none, just := .ax, thVars := [], mergeEnabled := true
    interpreted := false, mark1 := false }

/-- The read-only term universe and driver environment consumed by the core:
declarations, sorts, the `is_eq` / `is_unique_value` / `is_true` / `is_false`
predicates, the driver's boolean assignment (`m_value`), commutativity of
declarations (used by the congruence table), and the cancellation limit
consulted by `propagate`. -/
structure Env where
  decl : Nat → Nat
  sort : Nat → Nat
  isEq : Nat → Bool
  isUniqueValue : Nat → Bool
  isTrue : Nat → Bool
  isFalse : Nat → Bool
  value : Nat → LBool
  isComm : Nat → Bool
  limit : Nat

/-- The e-graph state: `m_nodes` (creation order), the node store, the
live-expression map `m_expr2enode`, the congruence table, the trail
`m_updates`, scope snapshots `m_scopes`, the pending-scope counter
`m_num_scopes`, both event queues with their read cursors, the inconsistency
flag, the conflict triple, the worklist, the per-theory disequality
registration, and the statistics counters. -/
structure St where
  nodes : List Nat
  map : Nat → ENode
  live : Nat → Bool
  table : List Nat
  updates : List URec
  scopes : List Nat
  numScopes : Nat
  newLits : List (Nat × Bool)
  newLitsQhead : Nat
  newThEqs : List ThEq
  newThEqsQhead : Nat
  inconsistent : Bool
  confN1 : Nat
  confN2 : Nat
  confJ : Justification
  worklist : List Nat
  thPropDiseqs : List Nat
  numMerge : Nat
  numConflicts : Nat
  numLits : Nat
  numEqs : Nat
  numThEqs : Nat
  numThDiseqs : Nat

/-- The empty e-graph. -/
def initSt : St :=
  { nodes := [], map := defNode, live := fun _ => false, table := []
    updates := [], scopes := [], numScopes := 0
    newLits := [], newLitsQhead := 0, newThEqs := [], newThEqsQhead := 0
    inconsistent := false, confN1 := 0, confN2 := 0, confJ := .ax
    worklist := [], thPropDiseqs := []
    numMerge := 0, numConflicts := 0, numLits := 0, numEqs := 0
    numThEqs := 0, numThDiseqs := 0 }

/-- Point update of one node's fields. -/
def St.upd (s : St) (i : Nat) (f : ENode → ENode) : St :=
  { s with map := fun j => if j = i then f (s.map j) else s.map j }

/-- Modelled from the spec: `enode::get_th_var` of the missing `euf_enode.h`
returns the theory variable attached under a theory id, `null_theory_var`
(-1) when absent. -/
def St.getThVar (s : St) (n : Nat) (tid : Nat) : Int :=
  match (s.map n).thVars.find? (fun p => p.1 == tid) with
  | some p => p.2
  | none => -1

/-- Modelled from the spec: `enode::add_th_var` appends an `(theory, var)`
attachment. -/
def St.addThVarEntry (s : St) (n : Nat) (v : Int) (tid : Nat) : St :=
  s.upd n fun e => { e with thVars := e.thVars ++ [(tid, v)] }

/-- Modelled from the spec: `enode::replace_th_var` overwrites the variable of
the existing attachment under the theory id. -/
def St.replaceThVarEntry (s : St) (n : Nat) (v : Int) (tid : Nat) : St :=
  s.upd n fun e =>
    { e with thVars := e.thVars.map fun p => if p.1 == tid then (p.1, v) else p }

/-- Modelled from the spec: `enode::del_th_var` removes the attachment under
the theory id. -/
def St.delThVar (s : St) (n : Nat) (tid : Nat) : St :=
  s.upd n fun e => { e with thVars := e.thVars.filter fun p => p.1 != tid }

/-- Modelled from the spec (§3 invariant 6): `enode::get_closest_th_var` walks
the proof forest from `n` and returns the first attachment found under the
theory id. -/
def St.closestThVarAux (s : St) (tid : Nat) : Nat → Nat → Int
  | _, 0 => -1
  | cur, fuel+1 =>
    if (s.map cur).thVars.any (fun p => p.1 == tid) then s.getThVar cur tid
    else
      match (s.map cur).target with
      | some t => s.closestThVarAux tid t fuel
      | none => -1

def St.closestThVar (s : St) (n : Nat) (tid : Nat) : Int :=
  s.closestThVarAux tid n (s.nodes.length + 1)

/-- Modelled from the spec (§2, §3 invariant 2): `enode_class` iterates the
circular `next` ring starting at a node; the fuel (number of live nodes)
bounds any well-formed ring. -/
def St.ringAux (s : St) (stop : Nat) : Nat → Nat → List Nat
  | _, 0 => []
  | cur, fuel+1 =>
    cur ::
      (let nxt := (s.map cur).next
       if nxt = stop then [] else s.ringAux stop nxt fuel)

def St.ring (s : St) (n : Nat) : List Nat :=
  s.ringAux n n s.nodes.length

/-- Modelled from the spec (§9, proof-forest reversal):`enode::reverse_justification`
walks the `target` path from a node and swaps each `(target, justification)`
pair in place, carrying the outgoing edge as a loop variable; the first node
of the path ends with no target. -/
def St.reverseJustAux (s : St) : Nat → Option (Nat × Justification) → Nat → St
  | _, _, 0 => s
  | cur, prev, fuel+1 =>
    let oldT := (s.map cur).target
    let oldJ := (s.map cur).just
    let s1 := s.upd cur fun e =>
      { e with target := prev.map Prod.fst
               just := match prev with
                       | some pj => pj.2
                       | none => .ax }
    match oldT with
    | none => s1
    | some t => s1.reverseJustAux t (some (cur, oldJ)) fuel

def St.reverseJust (s : St) (n : Nat) : St :=
  s.reverseJustAux n none (s.nodes.length + 1)

/-! ## Congruence table (`euf::etable`)

Modelled from the spec (§4.2), since `euf_etable.h/cpp` is not under `src/`:
two application nodes are congruent when they have the same declaration,
arity and sort and their arguments have pairwise equal roots in order;
commutative binary declarations additionally match under the swapped argument
order.  `insert` returns the congruent node already present (with the
commutativity flag of the match) or adds the node; `erase` removes by
identity. -/

/-- Whether stored node `q` is congruent to node `p` under the current roots. -/
def congruent (env : Env) (s : St) (q p : Nat) : Bool :=
  let eq := s.map q
  let ep := s.map p
  env.decl eq.expr == env.decl ep.expr &&
  eq.args.length == ep.args.length &&
  env.sort eq.expr == env.sort ep.expr &&
  ((eq.args.map fun a => (s.map a).root) == (ep.args.map fun a => (s.map a).root) ||
   (env.isComm (env.decl ep.expr) && eq.args.length == 2 &&
    (eq.args.map fun a => (s.map a).root) ==
      (ep.args.reverse.map fun a => (s.map a).root)))

/-- Whether stored node `q` is congruent to `p` only via the swapped argument
order (the `comm` component of the pair returned by `etable::insert`). -/
def congruentComm (env : Env) (s : St) (q p : Nat) : Bool :=
  let eq := s.map q
  let ep := s.map p
  ((eq.args.map fun a => (s.map a).root) != (ep.args.map fun a => (s.map a).root)) &&
  env.isComm (env.decl ep.expr)

/-- Insert, mirroring `etable::insert`: returns `(existing, comm)` on a hit, else adds `p` and
returns `(p, false)`. -/
def tableInsert (env : Env) (s : St) (p : Nat) : St × Nat × Bool :=
  match s.table.find? (fun q => congruent env s q p) with
  | some q => (s, q, congruentComm env s q p)
  | none => ({ s with table := s.table ++ [p] }, p, false)

/-- Erase, mirroring `etable::erase`: removes by identity. -/
def tableErase (s : St) (p : Nat) : St :=
  { s with table := s.table.erase p }

/-! ## Basic mutation helpers of `egraph` -/

/-- Model of `egraph::add_th_eq` (euf_egraph.cpp:129): enqueue a theory equality and
trail it. -/
def addThEq (s : St) (id : Nat) (v1 v2 : Int) (c r : Nat) : St :=
  { s with newThEqs := s.newThEqs ++ [.eq id v1 v2 c r]
           updates := s.updates ++ [.newThEq]
           numThEqs := s.numThEqs + 1 }

/-- Model of `egraph::th_propagates_diseqs` (euf_egraph.cpp:208). -/
def thPropagatesDiseqs (s : St) (id : Nat) : Bool :=
  s.thPropDiseqs.contains id

/-- Model of `egraph::add_th_diseq` (euf_egraph.cpp:136): enqueue a theory disequality
when the theory registered for them, and trail it. -/
def addThDiseq (s : St) (id : Nat) (v1 v2 : Int) (e : Nat) : St :=
  if thPropagatesDiseqs s id then
    { s with newThEqs := s.newThEqs ++ [.diseq id v1 v2 e]
             updates := s.updates ++ [.newThEq]
             numThDiseqs := s.numThDiseqs + 1 }
  else s

/-- Model of `egraph::add_literal` (euf_egraph.cpp:145): enqueue a literal propagation
and trail it. -/
def addLiteral (s : St) (n : Nat) (isEq : Bool) : St :=
  { s with newLits := s.newLits ++ [(n, isEq)]
           updates := s.updates ++ [.newLit]
           numEqs := if isEq then s.numEqs + 1 else s.numEqs
           numLits := if isEq then s.numLits else s.numLits + 1 }

/-- Model of `egraph::is_equality` (euf_egraph.cpp:74). -/
def isEquality (env : Env) (s : St) (p : Nat) : Bool :=
  env.isEq (s.map p).expr

/-- Model of `egraph::force_push` (euf_egraph.cpp:78): materialise every pending scope
by snapshotting the trail length, then record both queue cursors once. -/
def forcePush (s : St) : St :=
  if s.numScopes = 0 then s
  else
    { s with scopes := s.scopes ++ List.replicate s.numScopes s.updates.length
             numScopes := 0
             updates := s.updates ++
               [.newThEqQhead s.newThEqsQhead, .newLitsQhead s.newLitsQhead] }

/-- Model of `egraph::push` (declared in the missing header; spec §4.7): increment the
pending-scope counter. -/
def push (s : St) : St :=
  { s with numScopes := s.numScopes + 1 }

/-- Model of `egraph::set_merge_enabled` (euf_egraph.cpp:250). -/
def setMergeEnabled (s : St) (n : Nat) (enable : Bool) : St :=
  if enable != (s.map n).mergeEnabled then
    let s := { s with updates := s.updates ++ [URec.toggleMerge n] }
    s.upd n fun e => { e with mergeEnabled := enable }
  else s

/-- Model of `egraph::set_th_propagates_diseqs` (euf_egraph.cpp:203). -/
def setThPropagatesDiseqs (s : St) (id : Nat) : St :=
  { s with thPropDiseqs := s.thPropDiseqs ++ [id] }

/-- Model of `egraph::set_conflict` (euf_egraph.cpp:406): bump the conflict counter;
when not already inconsistent, raise the flag, trail it, and store the
conflict triple. -/
def setConflict (s : St) (n1 n2 : Nat) (j : Justification) : St :=
  let s := { s with numConflicts := s.numConflicts + 1 }
  if s.inconsistent then s
  else
    { s with inconsistent := true
             updates := s.updates ++ [.incFlag false]
             confN1 := n1, confN2 := n2, confJ := j }

/-- Model of `egraph::update_children` (euf_egraph.cpp:91): register `n` as a parent of
each argument's root. -/
def updateChildren (s : St) (n : Nat) : St :=
  (s.map n).args.foldl
    (fun s c => s.upd (s.map c).root fun e => { e with parents := e.parents ++ [n] })
    s

/-- Model of `egraph::mk_enode` (euf_egraph.cpp:40): allocate the node, append it to
`m_nodes`, map its expression, trail `add_node`, and enable merging on the
children. -/
def mkEnode (s : St) (f : Nat) (args : List Nat) : St :=
  let s := { s with
    map := fun j => if j = f then
      { expr := f, args := args, root := f, next := f, classSize := 1
        parents := [], target := none, just := .ax, thVars := []
        mergeEnabled := true, interpreted := false, mark1 := false }
      else s.map j
    nodes := s.nodes ++ [f]
    live := fun j => if j = f then true else s.live j
    updates := s.updates ++ [.addNode] }
  args.foldl (fun s a => setMergeEnabled s a true) s

/-- Model of `egraph::reinsert_equality` (euf_egraph.cpp:67): if both arguments of the
equality share a root and its assigned value is not true, propagate it as a
literal. -/
def reinsertEquality (env : Env) (s : St) (p : Nat) : St :=
  if (s.map ((s.map p).args.getD 0 0)).root = (s.map ((s.map p).args.getD 1 0)).root
     && env.value (s.map p).expr != LBool.tt then
    addLiteral s p true
  else s

/-- Model of `egraph::add_th_diseqs` (euf_egraph.cpp:187): scan the root's parents for
equality atoms whose root is `false` and emit a disequality against the other
argument's closest theory variable. -/
def addThDiseqs (env : Env) (s : St) (id : Nat) (v1 : Int) (r : Nat) : St :=
  if thPropagatesDiseqs s id then
    (s.map r).parents.foldl
      (fun s p =>
        if env.isEq (s.map p).expr && env.isFalse (s.map (s.map p).root).expr then
          let a0 := (s.map p).args.getD 0 0
          let a1 := (s.map p).args.getD 1 0
          let n := if r = (s.map a0).root then a1 else a0
          let n := (s.map n).root
          let v2 := s.closestThVar n id
          if v2 != (-1 : Int) then addThDiseq s id v1 v2 (s.map p).expr else s
        else s)
      s
  else s

/-- Model of `egraph::new_diseq` (euf_egraph.cpp:152): an equality atom was merged with
`false`; derive theory disequalities between the argument roots. -/
def newDiseq (_env : Env) (s : St) (n1 : Nat) : St :=
  let arg1 := (s.map n1).args.getD 0 0
  let arg2 := (s.map n1).args.getD 1 0
  let r1 := (s.map arg1).root
  let r2 := (s.map arg2).root
  if r1 = r2 then s
  else if (s.map r1).thVars.isEmpty then s
  else if (s.map r2).thVars.isEmpty then s
  else if (s.map r1).thVars.length == 1 && (s.map r2).thVars.length == 1 &&
          ((s.map r1).thVars.headD (0, -1)).1 == ((s.map r2).thVars.headD (0, -1)).1 then
    let id := ((s.map r1).thVars.headD (0, -1)).1
    if thPropagatesDiseqs s id then
      addThDiseq s id (s.closestThVar arg1 id) (s.closestThVar arg2 id) (s.map n1).expr
    else s
  else
    (s.map r1).thVars.foldl
      (fun s p =>
        if thPropagatesDiseqs s p.1 then
          (s.map r2).thVars.foldl
            (fun s q =>
              if p.1 == q.1 then addThDiseq s p.1 p.2 q.2 (s.map n1).expr else s)
            s
        else s)
      s

/-- Model of `egraph::merge_th_eq` (euf_egraph.cpp:363): promote the absorbed root's
theory variables to the new root, or emit theory equalities against the new
root's existing attachments. -/
def mergeThEq (env : Env) (s : St) (n root : Nat) : St :=
  (s.map n).thVars.foldl
    (fun s iv =>
      let id := iv.1
      let v := s.getThVar root id
      if v = -1 then
        let s := s.addThVarEntry root iv.2 id
        let s := { s with updates := s.updates ++ [URec.addThVar root id] }
        addThDiseqs env s id iv.2 root
      else addThEq s id v iv.2 n root)
    s

/-- Model of `egraph::merge_justification` (euf_egraph.cpp:417): reverse the proof
edges along `n1 → … → r1`, then point `n1` at `n2` with justification `j`. -/
def mergeJustification (s : St) (n1 n2 : Nat) (j : Justification) : St :=
  let s := s.reverseJust n1
  s.upd n1 fun e => { e with target := some n2, just := j }

/-- Model of `egraph::unmerge_justification` (euf_egraph.cpp:433): clear `n1`'s edge
and reverse the edges from the (already restored) root back to `n1`. -/
def unmergeJustification (s : St) (n1 : Nat) : St :=
  let s := s.upd n1 fun e => { e with target := none, just := .ax }
  s.reverseJust (s.map n1).root

/-- Model of `push_eq`: trail the `set_parent` record of a merge (euf_egraph.cpp:352),
carrying the absorbed root, the absorbed-side node and the new root's current
parent count. -/
def pushEq (s : St) (r1 n1 r2np : Nat) : St :=
  { s with updates := s.updates ++ [URec.setParent r1 n1 r2np] }

/-- Model of `egraph::merge` (euf_egraph.cpp:326): union the classes of `n1` and `n2`.
Notably, the de-indexing loops erase the parents of `n1` and `n2` (the
argument nodes), not of the roots `r1` and `r2`. -/
def merge (env : Env) (s : St) (n1 n2 : Nat) (j : Justification) : St :=
  let r1 := (s.map n1).root
  let r2 := (s.map n2).root
  if r1 = r2 then s
  else
    let s := forcePush s
    let s := { s with numMerge := s.numMerge + 1 }
    if (s.map r1).interpreted && (s.map r2).interpreted then
      setConflict s n1 n2 j
    else
      let sw := (decide ((s.map r1).classSize > (s.map r2).classSize)
                  && !(s.map r2).interpreted) || (s.map r1).interpreted
      let n1' := if sw then n2 else n1
      let n2' := if sw then n1 else n2
      let r1' := if sw then r2 else r1
      let r2' := if sw then r1 else r2
      let s := if (env.isTrue (s.map r2').expr || env.isFalse (s.map r2').expr)
                  && j.isCongruence then addLiteral s n1' false else s
      let s := if env.isFalse (s.map r2').expr && env.isEq (s.map n1').expr
               then newDiseq env s n1' else s
      let s := (s.map n1').parents.foldl tableErase s
      let s := (s.map n2').parents.foldl tableErase s
      let s := pushEq s r1' n1' (s.map r2').parents.length
      let s := mergeJustification s n1' n2' j
      let cls := s.ring n1'
      let s := cls.foldl (fun s c => s.upd c fun e => { e with root := r2' }) s
      let t1 := (s.map r1').next
      let t2 := (s.map r2').next
      let s := (s.upd r1' fun e => { e with next := t2 }).upd r2' fun e =>
                 { e with next := t1 }
      let sz1 := (s.map r1').classSize
      let s := s.upd r2' fun e => { e with classSize := e.classSize + sz1 }
      let ps1 := (s.map r1').parents
      let s := s.upd r2' fun e => { e with parents := e.parents ++ ps1 }
      let s := mergeThEq env s r1' r2'
      { s with worklist := s.worklist ++ [r2'] }

/-- Model of `egraph::undo_eq` (euf_egraph.cpp:25): reverse one merge: restore the
class size, swap the rings back, remove the appended parents from the table,
re-root the absorbed class, re-insert those parents, truncate the parent
list, and unwind the proof-forest edge. -/
def undoEq (env : Env) (s : St) (r1 n1 r2np : Nat) : St :=
  let r2 := (s.map r1).root
  let sz1 := (s.map r1).classSize
  let s := s.upd r2 fun e => { e with classSize := e.classSize - sz1 }
  let t1 := (s.map r1).next
  let t2 := (s.map r2).next
  let s := (s.upd r1 fun e => { e with next := t2 }).upd r2 fun e =>
             { e with next := t1 }
  let region := (s.map r2).parents.drop r2np
  let s := region.foldl tableErase s
  let cls := s.ring r1
  let s := cls.foldl (fun s c => s.upd c fun e => { e with root := r1 }) s
  let s := region.foldl (fun s p => (tableInsert env s p).1) s
  let s := s.upd r2 fun e => { e with parents := e.parents.take r2np }
  unmergeJustification s n1

/-- Model of `egraph::undo_add_th_var` (euf_egraph.cpp:241). -/
def undoAddThVar (s : St) (n : Nat) (tid : Nat) : St :=
  let v := s.getThVar n tid
  let s := s.delThVar n tid
  let root := (s.map n).root
  if root != n && s.getThVar root tid == v then s.delThVar root tid else s

/-- The `undo_node` lambda of `egraph::pop` (euf_egraph.cpp:268): destroy the
most recently created node.  The node's parents are not removed from its
argument roots' parent lists. -/
def undoNode (s : St) : St :=
  let n := s.nodes.getLastD 0
  let s := if (s.map n).args.length > 0 then tableErase s n else s
  { s with live := fun j => if j = n then false else s.live j
           nodes := s.nodes.dropLast }

/-- One step of the backward trail walk of `egraph::pop`
(euf_egraph.cpp:278-316). -/
def undoRecord (env : Env) (s : St) (r : URec) : St :=
  match r with
  | .addNode => undoNode s
  | .toggleMerge n => s.upd n fun e => { e with mergeEnabled := !e.mergeEnabled }
  | .setParent r1 n1 np => undoEq env s r1 n1 np
  | .addThVar n tid => undoAddThVar s n tid
  | .replaceThVar n tid old => s.replaceThVarEntry n old tid
  | .newLit => { s with newLits := s.newLits.dropLast }
  | .newThEq => { s with newThEqs := s.newThEqs.dropLast }
  | .newThEqQhead q => { s with newThEqsQhead := q }
  | .newLitsQhead q => { s with newLitsQhead := q }
  | .incFlag old => { s with inconsistent := old }

/-- Model of `egraph::pop` (euf_egraph.cpp:257): if at most the pending counter, just
decrement it; otherwise walk the trail backwards to the scope snapshot,
undoing each record, then shrink the trail and scopes and reset the
worklist. -/
def pop (env : Env) (s : St) (numScopes : Nat) : St :=
  if numScopes ≤ s.numScopes then
    { s with numScopes := s.numScopes - numScopes }
  else
    let k := numScopes - s.numScopes
    let s := { s with numScopes := 0 }
    let oldLim := s.scopes.length - k
    let numUpdates := s.scopes.getD oldLim 0
    let suffix := s.updates.drop numUpdates
    let s := suffix.reverse.foldl (undoRecord env) s
    { s with updates := s.updates.take numUpdates
             scopes := s.scopes.take oldLim
             worklist := [] }

/-- Model of `egraph::add_th_var` (euf_egraph.cpp:214).  In the replacement branch the
trail record carries `u`, the root's attachment, not the node's previous
attachment. -/
def addThVar (env : Env) (s : St) (n : Nat) (v : Int) (id : Nat) : St :=
  let s := forcePush s
  let w := s.getThVar n id
  let r := (s.map n).root
  if w = -1 then
    let s := s.addThVarEntry n v id
    let s := { s with updates := s.updates ++ [URec.addThVar n id] }
    if r ≠ n then
      let u := s.getThVar r id
      if u = -1 then
        let s := s.addThVarEntry r v id
        addThDiseqs env s id v r
      else addThEq s id v u n r
    else s
  else
    let u := s.getThVar r id
    let s := s.replaceThVarEntry n v id
    let s := { s with updates := s.updates ++ [URec.replaceThVar n id u] }
    addThEq s id v u n r

/-- Model of `egraph::mk` (euf_egraph.cpp:97): create a node for a fresh expression;
interpreted constants are flagged; equality atoms bypass the congruence
table; other applications are hash-consed, merging on a hit. -/
def mk (env : Env) (s : St) (f : Nat) (args : List Nat) : St :=
  let s := forcePush s
  let s := mkEnode s f args
  let s := if args.length = 0 && env.isUniqueValue f then
             s.upd f fun e => { e with interpreted := true }
           else s
  if args.length = 0 then s
  else if env.isEq f then
    let s := updateChildren s f
    reinsertEquality env s f
  else
    let res := tableInsert env s f
    let s := res.1
    let n2 := res.2.1
    if n2 = f then updateChildren s f
    else merge env s f n2 (.congr res.2.2)

/-- The body of `egraph::reinsert` (euf_egraph.cpp:51): re-insert parents
`i, …, numParents-1` of `n`, merging on congruence hits; the bound is the
snapshot taken at entry, the list is read live. -/
def reinsertAux (env : Env) (n : Nat) : Nat → Nat → St → St
  | _, 0, s => s
  | i, fuel+1, s =>
    let p := (s.map n).parents.getD i 0
    if isEquality env s p then
      reinsertAux env n (i+1) fuel (reinsertEquality env s p)
    else
      let res := tableInsert env s p
      let s := merge env res.1 res.2.1 p (.congr res.2.2)
      if s.inconsistent then s
      else reinsertAux env n (i+1) fuel s

/-- Model of `egraph::reinsert` (euf_egraph.cpp:51). -/
def reinsert (env : Env) (s : St) (n : Nat) : St :=
  reinsertAux env n 0 (s.map n).parents.length s

/-- Inner loop of `egraph::propagate` (euf_egraph.cpp:385-392): process
worklist slots `[i, tail)`, stopping on inconsistency, re-inserting each
still-unmarked root's parents. -/
def processRange (env : Env) : Nat → Nat → Nat → St → St
  | _, _, 0, s => s
  | i, tail, fuel+1, s =>
    if i < tail then
      if s.inconsistent then s
      else
        let n := (s.map (s.worklist.getD i 0)).root
        let s :=
          if (s.map n).mark1 then s
          else
            let s := s.upd n fun e => { e with mark1 := true }
            let s := { s with worklist := s.worklist.set i n }
            reinsert env s n
        processRange env (i+1) tail fuel s
    else s

/-- Unmark loop of `egraph::propagate` (euf_egraph.cpp:393-394). -/
def unmarkRange : Nat → Nat → Nat → St → St
  | _, _, 0, s => s
  | i, tail, fuel+1, s =>
    if i < tail then
      let s := s.upd (s.worklist.getD i 0) fun e => { e with mark1 := false }
      unmarkRange (i+1) tail fuel s
    else s

/-- Outer wave loop of `egraph::propagate` (euf_egraph.cpp:384-397); the fuel
models the manager's cancellation limit. -/
def propagateLoop (env : Env) : Nat → Nat → Nat → St → St
  | _, _, 0, s => s
  | head, tail, fuel+1, s =>
    if head < tail then
      if s.inconsistent then s
      else
        let s := processRange env head tail (tail - head) s
        let s := unmarkRange head tail (tail - head) s
        propagateLoop env tail s.worklist.length fuel s
    else s

/-- Model of `egraph::propagate` (euf_egraph.cpp:380): drain the worklist in waves,
reset it, materialise pending scopes, and report whether events are pending
past either cursor or the state is inconsistent. -/
def propagate (env : Env) (s : St) : St × Bool :=
  let s := propagateLoop env 0 s.worklist.length env.limit s
  let s := { s with worklist := [] }
  let s := forcePush s
  (s, decide (s.newLitsQhead < s.newLits.length) ||
      decide (s.newThEqsQhead < s.newThEqs.length) || s.inconsistent)

/-- The `m_table.find(m_tmp_eq)` lookup of `egraph::are_diseq`: find a stored
equality node whose argument roots match those of `a` and `b`.  Modelled from
the spec (§4.2): the table treats the (commutative, binary) equality
declaration with the swapped-argument test. -/
def findTmpEq (env : Env) (s : St) (a b : Nat) : Option Nat :=
  let ra := (s.map a).root
  let rb := (s.map b).root
  s.table.find? fun q =>
    env.isEq (s.map q).expr &&
    (s.map q).args.length == 2 &&
    (let q0 := (s.map ((s.map q).args.getD 0 0)).root
     let q1 := (s.map ((s.map q).args.getD 1 0)).root
     (q0 == ra && q1 == rb) || (q0 == rb && q1 == ra))

/-- Model of `egraph::are_diseq` (euf_egraph.cpp:449). -/
def areDiseq (env : Env) (s : St) (a b : Nat) : Bool :=
  let ra := (s.map a).root
  let rb := (s.map b).root
  if ra = rb then false
  else if (s.map ra).interpreted && (s.map rb).interpreted then true
  else if env.sort (s.map ra).expr != env.sort (s.map rb).expr then true
  else
    match findTmpEq env s a b with
    | some r => env.value (s.map (s.map r).root).expr == LBool.ff
    | none => false

/-- Model of `justification::copy` through the caller's token-copy function. -/
def copyJust (f : Nat → Nat) : Justification → Justification
  | .ext t => .ext (f t)
  | j => j

/-- Model of `egraph::copy_from` (euf_egraph.cpp:625), with the identity term
translation and token-copy function: replay every node creation in order,
then for each source node with a proof-forest edge look up
`old_expr2new_enode[n1->get_expr_id()]` (the copy of `n1` itself, as the
source does) and merge when the roots differ, then propagate. -/
def copyFrom (env : Env) (src : St) : St :=
  let pass1 := src.nodes.foldl
    (fun (acc : St × (Nat → Nat)) n1 =>
      let dst := acc.1
      let o2n := acc.2
      let args := (src.map n1).args.map o2n
      let dst := mk env dst n1 args
      (dst, fun j => if j = n1 then n1 else o2n j))
    (initSt, fun j => j)
  let o2n := pass1.2
  let dst := src.nodes.foldl
    (fun dst n1 =>
      let n1t := (src.map n1).target
      let n2 := n1
      let n2t := o2n n1
      match n1t with
      | none => dst
      | some _ =>
        if (dst.map n2).root ≠ (dst.map n2t).root then
          merge env dst n2 n2t (copyJust (fun t => t) (src.map n1).just)
        else dst)
    pass1.1
  (propagate env dst).1

/-! ## Concrete term universes and runs used by the scenario claims -/

/-- A term universe with uninterpreted constants `1`, `2`, `4`, `5`, `6` and
the applications `3`, `4` of an uninterpreted unary symbol `10`. -/
def envA : Env :=
  { decl := fun e => if e = 3 then 10 else if e = 4 then 10 else e
    sort := fun _ => 0
    isEq := fun _ => false
    isUniqueValue := fun _ => false
    isTrue := fun _ => false
    isFalse := fun _ => false
    value := fun _ => .undef
    isComm := fun _ => false
    limit := 10 }

/-- The congruence scenario: create `a := 1`, `b := 2`, `f(a) := 3`,
`f(b) := 4`, then `merge(a, b, axiom)` — with no `propagate`. -/
def c1s : St :=
  merge envA (mk envA (mk envA (mk envA (mk envA initSt 1 []) 2 []) 3 [1]) 4 [2])
    1 2 .ax

/-- The pre-push state of the undo scenario: constants `1` and `2`. -/
def c2pre : St := mk envA (mk envA initSt 1 []) 2 []

/-- The run `push(); merge(1, 2, axiom); mk 3 := f(1); pop(1)` on `c2pre`. -/
def c2post : St := pop envA (mk envA (merge envA (push c2pre) 1 2 .ax) 3 [1]) 1

/-- State with class `{1, 2}` rooted at `2` carrying parent `3 := f(2)` in the
congruence table, and class `{4, 5, 6}` rooted at `5`. -/
def c4pre : St :=
  merge envA
    (merge envA
      (mk envA (mk envA (mk envA
        (propagate envA
          (merge envA (mk envA (mk envA (mk envA initSt 1 []) 2 []) 3 [2])
            1 2 .ax)).1
        4 []) 5 []) 6 [])
      4 5 .ax)
    4 6 .ax

/-- Term universe in which constant `1` is a unique value. -/
def envC : Env := { envA with isUniqueValue := fun e => e == 1 }

/-- An interpreted constant `1` next to a plain constant `2` of the same
sort. -/
def c6s : St := mk envC (mk envC initSt 1 []) 2 []

/-- Constants `1`, `2` with theory-`7` variables `1` resp. `2`, merged so the
class root `2` keeps variable `2` while node `1` keeps variable `1`. -/
def c7pre : St :=
  merge envA
    (addThVar envA (addThVar envA (mk envA (mk envA initSt 1 []) 2 []) 1 1 7)
      2 2 7)
    1 2 .ax

/-- The run `push(); add_th_var(1, 3, 7)` on `c7pre`: the replacement branch. -/
def c7mid : St := addThVar envA (push c7pre) 1 3 7

/-- The run `pop(1)` after the replacement. -/
def c7post : St := pop envA c7mid 1

/-- The run `mk 1; mk 2; push; merge(1, 2, axiom); push`: one materialised scope, one
pending scope. -/
def c8s : St := push (merge envA (push (mk envA (mk envA initSt 1 []) 2 [])) 1 2 .ax)

/-- A source e-graph with constants `1`, `2` merged by an axiom (no scopes,
no theory variables). -/
def c9src : St := merge envA (mk envA (mk envA initSt 1 []) 2 []) 1 2 .ax

/-- Term universe with two unique-value constants `1` and `2`. -/
def envD : Env := { envA with isUniqueValue := fun e => e == 1 || e == 2 }

/-- Merging the two distinct unique values makes the state inconsistent. -/
def cDs : St := merge envD (mk envD (mk envD initSt 1 []) 2 []) 1 2 .ax

/-- The use-after-free gateway of the undo machinery:
`mk 1; push(); mk 3 := f(1); pop(1)` — a valid sequence (the expression `3`
is fresh, its argument exists, the pop matches the push). -/
def leak1 : St := pop envA (mk envA (push (mk envA initSt 1 [])) 3 [1]) 1

/-- Continuing `leak1` with `mk 2; mk 4 := f(2); merge(1, 2, axiom);
propagate()` — all preconditions again respected. -/
def leak2 : St :=
  (propagate envA (merge envA (mk envA (mk envA leak1 2 []) 4 [2]) 1 2 .ax)).1

/-! ## Helper lemmas -/

/-- Lemma: `force_push` changes only the scope bookkeeping: the node store is
untouched. -/
theorem forcePush_map (s : St) : (forcePush s).map = s.map := by
  unfold forcePush
  split <;> rfl

/-- Lemma: `force_push` leaves both event queues, both cursors and the inconsistency
flag unchanged. -/
theorem forcePush_queues (s : St) :
    (forcePush s).newLits = s.newLits ∧ (forcePush s).newThEqs = s.newThEqs ∧
    (forcePush s).newLitsQhead = s.newLitsQhead ∧
    (forcePush s).newThEqsQhead = s.newThEqsQhead ∧
    (forcePush s).inconsistent = s.inconsistent := by
  unfold forcePush
  split <;> exact ⟨rfl, rfl, rfl, rfl, rfl⟩

/-- An inconsistent state short-circuits the propagation wave loop. -/
theorem propagateLoop_inconsistent (env : Env) (head tail fuel : Nat) (s : St)
    (h : s.inconsistent = true) :
    propagateLoop env head tail fuel s = s := by
  cases fuel with
  | zero => rfl
  | succ f =>
    unfold propagateLoop
    split <;> simp [h]

/-- Lemma: `List.find?` only depends on the pointwise behaviour of the predicate. -/
theorem find?_ext {α : Type} (p q : α → Bool) (h : ∀ a, p a = q a) :
    ∀ l : List α, l.find? p = l.find? q := by
  intro l
  induction l with
  | nil => rfl
  | cons x l ih => rw [List.find?_cons, List.find?_cons, h x, ih]

/-- The synthesized-equality lookup of `are_diseq` is symmetric in its two
arguments (the table matches the commutative equality signature both ways). -/
theorem findTmpEq_comm (env : Env) (s : St) (a b : Nat) :
    findTmpEq env s a b = findTmpEq env s b a := by
  unfold findTmpEq
  apply find?_ext
  intro q
  cases h0 : env.isEq (s.map q).expr <;> cases h1 : (s.map q).args.length == 2 <;>
    simp [Bool.or_comm]

/-- Lemma: `force_push` preserves theory-variable attachments. -/
theorem getThVar_forcePush (s : St) (n t : Nat) :
    (forcePush s).getThVar n t = s.getThVar n t := by
  unfold St.getThVar
  rw [forcePush_map]

/-- Overwriting the entry of theory `t` in an attachment list that contains
one makes the lookup return the new variable. -/
theorem find?_replace (t : Nat) (v : Int) :
    ∀ l : List (Nat × Int), l.find? (fun p => p.1 == t) ≠ none →
      (l.map fun p => if p.1 == t then (p.1, v) else p).find? (fun p => p.1 == t)
        = some (t, v) := by
  intro l
  induction l with
  | nil => intro h; exact absurd rfl h
  | cons x l ih =>
    intro h
    by_cases hx : x.1 = t
    · simp [List.find?_cons, hx]
    · have hxf : (x.1 == t) = false := by simp [hx]
      have h2 : l.find? (fun p => p.1 == t) ≠ none := by
        intro hc
        apply h
        simp [List.find?_cons, hxf, hc]
      rw [List.map_cons, List.find?_cons]
      have hfx : (if (x.1 == t) = true then (x.1, v) else x) = x := by
        rw [hxf]
        simp
      rw [hfx]
      simp only [hxf]
      exact ih h2

/-- A node with a non-null attachment has an entry in its attachment list. -/
theorem getThVar_find (s : St) (n t : Nat) (h : s.getThVar n t ≠ -1) :
    ((s.map n).thVars.find? fun p => p.1 == t) ≠ none := by
  intro hc
  apply h
  unfold St.getThVar
  rw [hc]

/-- Point update of a node reads back the updated node. -/
theorem upd_map_self (s : St) (i : Nat) (f : ENode → ENode) :
    ((s.upd i f).map i) = f (s.map i) := by
  unfold St.upd
  simp

/-- Lemma: `replace_th_var` overwrites the attachment under `t` on a node that has
one. -/
theorem getThVar_replace (s : St) (n : Nat) (t : Nat) (v : Int)
    (h : ((s.map n).thVars.find? fun p => p.1 == t) ≠ none) :
    (s.replaceThVarEntry n v t).getThVar n t = v := by
  unfold St.getThVar St.replaceThVarEntry
  rw [upd_map_self]
  rw [show ({ s.map n with thVars := (s.map n).thVars.map (fun p => if p.1 == t then (p.1, v) else p) } : ENode).thVars = (s.map n).thVars.map (fun p => if p.1 == t then (p.1, v) else p) from rfl]
  rw [find?_replace t v _ h]

/-- Lemma: `replace_th_var` keeps the attachment entry present. -/
theorem find?_replaceThVarEntry_ne (s : St) (n : Nat) (t : Nat) (v : Int)
    (h : ((s.map n).thVars.find? fun p => p.1 == t) ≠ none) :
    (((s.replaceThVarEntry n v t).map n).thVars.find? fun p => p.1 == t) ≠ none := by
  unfold St.replaceThVarEntry
  rw [upd_map_self]
  rw [show ({ s.map n with thVars := (s.map n).thVars.map (fun p => if p.1 == t then (p.1, v) else p) } : ENode).thVars = (s.map n).thVars.map (fun p => if p.1 == t then (p.1, v) else p) from rfl]
  rw [find?_replace t v _ h]
  simp

/-! ## Claims -/

/-- C1 (counterexample): in the spec scenario `mk a, b, f(a), f(b);
merge(a, b, axiom)` with no intervening `propagate()`, `f(a)` and `f(b)` do
NOT yet share a root: the congruence is still queued on the worklist, so the
claim as stated is false. -/
theorem c1_counterexample :
    (c1s.map 3).root ≠ (c1s.map 4).root ∧ c1s.worklist = [2] := by decide

/-- C1 (amended): after `merge(a, b, axiom)` followed by `propagate()`, the
nodes `f(a)` and `f(b)` have the same root. -/
theorem c1_amended :
    ((propagate envA c1s).1.map 3).root = ((propagate envA c1s).1.map 4).root := by
  decide

/-- C2: `push; merge(1,2,axiom); mk 3 := f(1); pop(1)` does not restore the
congruence-table contents: the table was empty before the push, but after the
pop it contains the destroyed node `3`, because `undo_eq` re-inserts every
parent beyond the recorded count of the old root's parent list and
`undo_node` never removed `3` from that list.  (Node count, roots, rings,
queues, cursors and the flag are restored on this run.) -/
theorem c2_pop_not_restoring :
    c2pre.table = [] ∧ c2post.table = [3] ∧ c2post.live 3 = false ∧
    c2post.nodes = c2pre.nodes ∧ (c2post.map 1).root = (c2pre.map 1).root ∧
    c2post.table ≠ c2pre.table := by decide

/-- C4: in `merge(1, 4, axiom)` on `c4pre` the roots are `r1 = 2` and
`r2 = 5`, distinct and not both interpreted, and `3 ∈ r1.parents`; yet after
the merge completes (and `merge` performs no table insertion on this path)
node `3` is still in the congruence table while the class of `2` has been
re-rooted to `5` — so `3` was never removed before the roots were swung: the
code de-indexes the parents of the argument nodes `n1`, `n2`, not of the
roots. -/
theorem c4_parents_not_deindexed :
    (c4pre.map 1).root = 2 ∧ (c4pre.map 4).root = 5 ∧
    (c4pre.map 2).interpreted = false ∧ (c4pre.map 5).interpreted = false ∧
    3 ∈ (c4pre.map 2).parents ∧
    3 ∈ (merge envA c4pre 1 4 .ax).table ∧
    ((merge envA c4pre 1 4 .ax).map 2).root = 5 := by decide

/-- C9: the source has `1` and `2` in one class (via the proof-forest edge
`1 → 2`), but `copy_from` rebuilds them in distinct classes: the replay loop
looks up the translation of `n1` itself instead of its target, so the
root-inequality guard never fires and no proof-forest edge is replayed. -/
theorem c9_copy_not_equivalent :
    (c9src.map 1).root = (c9src.map 2).root ∧
    (c9src.map 1).target = some 2 ∧
    ((copyFrom envA c9src).map 1).root ≠ ((copyFrom envA c9src).map 2).root := by
  decide


/-- C5: `propagate()` returns true if and only if, after the drain, at least
one literal or theory-equality event sits past the corresponding read cursor
or the state is inconsistent; and when the state is already inconsistent it
performs no merges and no event emissions (node store and both queues with
their cursors are untouched) and returns true. -/
theorem c5_propagate_spec (env : Env) (s : St) :
    ((propagate env s).2 = true ↔
      ((propagate env s).1.newLitsQhead < (propagate env s).1.newLits.length ∨
       (propagate env s).1.newThEqsQhead < (propagate env s).1.newThEqs.length ∨
       (propagate env s).1.inconsistent = true)) ∧
    (s.inconsistent = true →
      (propagate env s).1.newLits = s.newLits ∧
      (propagate env s).1.newThEqs = s.newThEqs ∧
      (propagate env s).1.newLitsQhead = s.newLitsQhead ∧
      (propagate env s).1.newThEqsQhead = s.newThEqsQhead ∧
      (propagate env s).1.map = s.map ∧
      (propagate env s).2 = true) := by
  constructor
  · have h2 : (propagate env s).2 =
        (decide ((propagate env s).1.newLitsQhead < (propagate env s).1.newLits.length) ||
         decide ((propagate env s).1.newThEqsQhead < (propagate env s).1.newThEqs.length) ||
         (propagate env s).1.inconsistent) := rfl
    rw [h2]
    simp [Bool.or_eq_true, decide_eq_true_eq, or_assoc]
  · intro h
    unfold propagate
    rw [propagateLoop_inconsistent env 0 s.worklist.length env.limit s h]
    have hq := forcePush_queues { s with worklist := [] }
    have hm := forcePush_map { s with worklist := [] }
    simp only [hm, hq.1, hq.2.1, hq.2.2.1, hq.2.2.2.1, hq.2.2.2.2]
    simp [h]

/-- C5 witness: on the concrete inconsistent state `cDs`, `propagate` leaves
the queues alone and returns true. -/
theorem c5_witness :
    (propagate envD cDs).2 = true ∧ (propagate envD cDs).1.newLits = cDs.newLits := by
  have h := (c5_propagate_spec envD cDs).2 (by decide)
  exact ⟨h.2.2.2.2.2, h.1⟩

/-- C6 (counterexample): on `c6s` the roots of `1` and `2` are distinct and
differ on the `interpreted` flag (and sorts agree), yet `are_diseq(1, 2)`
returns false — the code tests that BOTH roots are interpreted, not that the
flags differ, so the claim's iff fails. -/
theorem c6_counterexample :
    areDiseq envC c6s 1 2 = false ∧
    (c6s.map (c6s.map 1).root).interpreted = true ∧
    (c6s.map (c6s.map 2).root).interpreted = false ∧
    (c6s.map 1).root ≠ (c6s.map 2).root ∧
    envC.sort (c6s.map (c6s.map 1).root).expr =
      envC.sort (c6s.map (c6s.map 2).root).expr := by decide

/-- C6 (amended): `are_diseq(a, b)` returns true iff the roots are distinct
and (both roots are interpreted, or the roots' sorts differ, or a synthesized
equality over `a, b` is found in the congruence table whose root's value is
false); moreover `are_diseq` is symmetric and returns false whenever the
roots coincide. -/
theorem c6_amended (env : Env) (s : St) (a b : Nat) :
    (areDiseq env s a b = true ↔
      ((s.map a).root ≠ (s.map b).root ∧
       (((s.map (s.map a).root).interpreted = true ∧
         (s.map (s.map b).root).interpreted = true) ∨
        env.sort (s.map (s.map a).root).expr ≠ env.sort (s.map (s.map b).root).expr ∨
        (∃ r, findTmpEq env s a b = some r ∧
              env.value (s.map (s.map r).root).expr = LBool.ff)))) ∧
    areDiseq env s a b = areDiseq env s b a ∧
    ((s.map a).root = (s.map b).root → areDiseq env s a b = false) := by
  refine ⟨?_, ?_, ?_⟩
  · unfold areDiseq
    by_cases h1 : (s.map a).root = (s.map b).root
    · simp [h1]
    · rw [if_neg h1]
      by_cases h2 : ((s.map (s.map a).root).interpreted &&
          (s.map (s.map b).root).interpreted) = true
      · rw [if_pos h2]
        constructor
        · intro _
          exact ⟨h1, Or.inl (by simpa using h2)⟩
        · intro _
          rfl
      · rw [if_neg h2]
        by_cases h3 : (env.sort (s.map (s.map a).root).expr !=
            env.sort (s.map (s.map b).root).expr) = true
        · rw [if_pos h3]
          constructor
          · intro _
            exact ⟨h1, Or.inr (Or.inl (by simpa using h3))⟩
          · intro _
            rfl
        · rw [if_neg h3]
          have h3e : env.sort (s.map (s.map a).root).expr =
              env.sort (s.map (s.map b).root).expr := by simpa using h3
          cases hf : findTmpEq env s a b with
          | none =>
            simp only [hf]
            constructor
            · intro hfalse
              exact absurd hfalse (by simp)
            · rintro ⟨-, hboth | hsort | ⟨r, hr, -⟩⟩
              · exact absurd (by simp [hboth.1, hboth.2] : ((s.map (s.map a).root).interpreted &&
                  (s.map (s.map b).root).interpreted) = true) h2
              · exact absurd h3e hsort
              · exact absurd hr (by simp)
          | some r =>
            simp only [hf]
            constructor
            · intro hv
              exact ⟨h1, Or.inr (Or.inr ⟨r, rfl, by simpa using hv⟩)⟩
            · rintro ⟨-, hboth | hsort | ⟨rp, hrp, hv⟩⟩
              · exact absurd (by simp [hboth.1, hboth.2] : ((s.map (s.map a).root).interpreted &&
                  (s.map (s.map b).root).interpreted) = true) h2
              · exact absurd h3e hsort
              · have : rp = r := (Option.some.inj hrp).symm
                subst this
                simpa using hv
  · unfold areDiseq
    rw [findTmpEq_comm env s a b]
    by_cases h1 : (s.map a).root = (s.map b).root
    · rw [if_pos h1, if_pos h1.symm]
    · have h1s : ¬ (s.map b).root = (s.map a).root := fun hc => h1 hc.symm
      rw [if_neg h1, if_neg h1s]
      by_cases h2 : ((s.map (s.map a).root).interpreted &&
          (s.map (s.map b).root).interpreted) = true
      · have h2s : ((s.map (s.map b).root).interpreted &&
            (s.map (s.map a).root).interpreted) = true := by
          simp at h2 ⊢
          exact ⟨h2.2, h2.1⟩
        rw [if_pos h2, if_pos h2s]
      · have h2s : ¬ ((s.map (s.map b).root).interpreted &&
            (s.map (s.map a).root).interpreted) = true := by
          intro hc
          apply h2
          simp at hc ⊢
          exact ⟨hc.2, hc.1⟩
        rw [if_neg h2, if_neg h2s]
        by_cases h3 : (env.sort (s.map (s.map a).root).expr !=
            env.sort (s.map (s.map b).root).expr) = true
        · have h3s : (env.sort (s.map (s.map b).root).expr !=
              env.sort (s.map (s.map a).root).expr) = true := by
            simp at h3 ⊢
            exact fun hc => h3 hc.symm
          rw [if_pos h3, if_pos h3s]
        · have h3s : ¬ (env.sort (s.map (s.map b).root).expr !=
              env.sort (s.map (s.map a).root).expr) = true := by
            intro hc
            apply h3
            simp at hc ⊢
            exact fun h => hc h.symm
          rw [if_neg h3, if_neg h3s]
  · intro h
    unfold areDiseq
    simp [h]

/-- C6 witness: the same-root component applied at a concrete input. -/
theorem c6_witness : areDiseq envC c6s 1 1 = false :=
  (c6_amended envC c6s 1 1).2.2 rfl

/-- C7 (counterexample): node `1` carries `(7, 1)` before the push and its
root `2` carries `(7, 2)`; after `push; add_th_var(1, 3, 7); pop(1)` the
attachment on `1` is `(7, 2)`, not the previous `(7, 1)` — the trail record
carries the root's variable `u`, not the old value `w`. -/
theorem c7_counterexample :
    c7pre.getThVar 1 7 = 1 ∧ (c7pre.map 1).root = 2 ∧
    c7pre.getThVar 2 7 = 2 ∧ c7mid.getThVar 1 7 = 3 ∧
    c7mid.updates.drop c7pre.updates.length =
      [URec.newThEqQhead 0, URec.newLitsQhead 0, URec.replaceThVar 1 7 2,
       URec.newThEq] ∧
    c7post.getThVar 1 7 = 2 ∧ (2 : Int) ≠ 1 := by decide

/-- C7 (amended): when `add_th_var(n, v, t)` is called on a node that already
carries an attachment under `t`, the attachment is replaced by `(t, v)` and
the trail record carries `u`, the ROOT's attachment under `t`; undoing that
record therefore restores `(t, u)` on `n` — which coincides with the old
value `w` exactly when the root's attachment equals `w` (in particular when
`n` is its own root). -/
theorem c7_amended (env : Env) (s : St) (n : Nat) (v : Int) (t : Nat)
    (h : s.getThVar n t ≠ -1) :
    (addThVar env s n v t).getThVar n t = v ∧
    (addThVar env s n v t).updates =
      (forcePush s).updates ++
        [URec.replaceThVar n t (s.getThVar (s.map n).root t), URec.newThEq] ∧
    (undoRecord env (addThVar env s n v t)
        (URec.replaceThVar n t (s.getThVar (s.map n).root t))).getThVar n t =
      s.getThVar (s.map n).root t := by
  have hw : ¬ (forcePush s).getThVar n t = -1 := by
    rw [getThVar_forcePush]; exact h
  have hr : ((forcePush s).map n).root = (s.map n).root := by rw [forcePush_map]
  have hu : (forcePush s).getThVar ((forcePush s).map n).root t
      = s.getThVar (s.map n).root t := by
    rw [hr, getThVar_forcePush]
  have hcond : (((forcePush s).map n).thVars.find? fun p => p.1 == t) ≠ none :=
    getThVar_find (forcePush s) n t hw
  have hkey : (addThVar env s n v t) =
      addThEq { (forcePush s).replaceThVarEntry n v t with
                updates := ((forcePush s).replaceThVarEntry n v t).updates ++
                  [URec.replaceThVar n t
                    ((forcePush s).getThVar ((forcePush s).map n).root t)] }
        t v ((forcePush s).getThVar ((forcePush s).map n).root t) n
        ((forcePush s).map n).root := by
    simp only [addThVar]
    rw [if_neg hw]
  refine ⟨?_, ?_, ?_⟩
  · rw [hkey]
    have hrfl : (addThEq { (forcePush s).replaceThVarEntry n v t with
        updates := ((forcePush s).replaceThVarEntry n v t).updates ++
          [URec.replaceThVar n t
            ((forcePush s).getThVar ((forcePush s).map n).root t)] }
        t v ((forcePush s).getThVar ((forcePush s).map n).root t) n
        ((forcePush s).map n).root).getThVar n t =
        ((forcePush s).replaceThVarEntry n v t).getThVar n t := rfl
    rw [hrfl]
    exact getThVar_replace (forcePush s) n t v hcond
  · rw [hkey]
    have hrfl : (addThEq { (forcePush s).replaceThVarEntry n v t with
        updates := ((forcePush s).replaceThVarEntry n v t).updates ++
          [URec.replaceThVar n t
            ((forcePush s).getThVar ((forcePush s).map n).root t)] }
        t v ((forcePush s).getThVar ((forcePush s).map n).root t) n
        ((forcePush s).map n).root).updates =
        ((forcePush s).updates ++ [URec.replaceThVar n t
          ((forcePush s).getThVar ((forcePush s).map n).root t)]) ++
          [URec.newThEq] := rfl
    rw [hrfl, hu]
    simp [List.append_assoc]
  · rw [hkey]
    have hrfl : undoRecord env (addThEq { (forcePush s).replaceThVarEntry n v t with
        updates := ((forcePush s).replaceThVarEntry n v t).updates ++
          [URec.replaceThVar n t
            ((forcePush s).getThVar ((forcePush s).map n).root t)] }
        t v ((forcePush s).getThVar ((forcePush s).map n).root t) n
        ((forcePush s).map n).root)
        (URec.replaceThVar n t (s.getThVar (s.map n).root t)) =
        St.replaceThVarEntry (addThEq { (forcePush s).replaceThVarEntry n v t with
          updates := ((forcePush s).replaceThVarEntry n v t).updates ++
            [URec.replaceThVar n t
              ((forcePush s).getThVar ((forcePush s).map n).root t)] }
          t v ((forcePush s).getThVar ((forcePush s).map n).root t) n
          ((forcePush s).map n).root) n (s.getThVar (s.map n).root t) t := rfl
    rw [hrfl]
    apply getThVar_replace
    have hcond2 := find?_replaceThVarEntry_ne (forcePush s) n t v hcond
    exact hcond2

/-- C7 witness: the amended theorem applied on the concrete state `c7pre`. -/
theorem c7_witness :
    (addThVar envA c7pre 1 3 7).getThVar 1 7 = 3 ∧
    (addThVar envA c7pre 1 3 7).updates =
      (forcePush c7pre).updates ++
        [URec.replaceThVar 1 7 (c7pre.getThVar (c7pre.map 1).root 7), URec.newThEq] ∧
    (undoRecord envA (addThVar envA c7pre 1 3 7)
        (URec.replaceThVar 1 7 (c7pre.getThVar (c7pre.map 1).root 7))).getThVar 1 7 =
      c7pre.getThVar (c7pre.map 1).root 7 :=
  c7_amended envA c7pre 1 3 7 (by decide)

/-- C8 (counterexample): on `c8s` only one scope is materialised (fewer than
`k = 2`), yet `pop(2)` does not merely decrement the pending counter: it
undoes the trail, moving node `1`'s root back from `2` to `1` and shrinking
the update log — the early exit of `pop` tests the PENDING counter, not the
materialised-scope count. -/
theorem c8_counterexample :
    c8s.scopes.length = 1 ∧ c8s.numScopes = 1 ∧
    (c8s.map 1).root = 2 ∧ ((pop envA c8s 2).map 1).root = 1 ∧
    (pop envA c8s 2).updates ≠ c8s.updates := by decide

/-- C8 (amended): whenever `k` does not exceed the PENDING-scope counter,
`pop(k)` only decrements that counter by `k` and performs no undo of trail
records. -/
theorem c8_amended (env : Env) (s : St) (k : Nat) (h : k ≤ s.numScopes) :
    pop env s k = { s with numScopes := s.numScopes - k } := by
  simp [pop, h]

/-- C8 witness: the amended theorem applied after two bare pushes. -/
theorem c8_witness :
    pop envA (push (push initSt)) 1 =
      { push (push initSt) with numScopes := (push (push initSt)).numScopes - 1 } :=
  c8_amended envA (push (push initSt)) 1 (by decide)

/-- C10: invoking `set_conflict` on an already-inconsistent state only
increments the conflict-statistics counter: the stored conflict triple, the
trail, and every other component are left unchanged, so `explain()` always
sees the first conflict recorded in the current scope. -/
theorem c10_set_conflict_noop (s : St) (n1 n2 : Nat) (j : Justification)
    (h : s.inconsistent = true) :
    setConflict s n1 n2 j = { s with numConflicts := s.numConflicts + 1 } := by
  simp [setConflict, h]

/-- C10 witness: applied on the concrete inconsistent state `cDs`. -/
theorem c10_witness :
    setConflict cDs 1 2 .ax = { cDs with numConflicts := cDs.numConflicts + 1 } :=
  c10_set_conflict_noop cDs 1 2 .ax (by decide)

/-- After the valid sequence `mk 1; push(); mk 3 := f(1); pop(1)`, the
destroyed node `3` is still recorded in the live node `1`'s parent list:
`undo_node` (euf_egraph.cpp:268-277) never removes a destroyed node from its
argument roots' parent lists. -/
theorem pop_leaves_dangling_parent :
    3 ∈ (leak1.map 1).parents ∧ leak1.live 3 = false ∧ leak1.nodes = [1] := by
  decide

/-- Continuing with `mk 2; mk 4 := f(2); merge(1, 2, axiom); propagate()`,
the stale parent entry flows into `m_table.insert` and `merge` inside
`reinsert` — in the source these calls read the freed node (use-after-free).
Under this embedding's benign resolution (a destroyed node's storage
persists, identifiers are never reused) the run ends with the live node `4`
rooted at, and targeting, the destroyed node `3`: the proof forest of a live
node leads outside the e-graph's node list. -/
theorem dangling_parent_reaches_forest :
    (leak2.map 4).target = some 3 ∧ (leak2.map 4).root = 3 ∧
    leak2.live 3 = false ∧ 3 ∉ leak2.nodes ∧ 4 ∈ leak2.nodes := by decide

end Euf
